import Mathlib

/- Verification of the Etzynger (Eytzinger-layout) N-ary tree library.
   The tree stores optional values in a flat array: child c of the node at
   array position p lives at position p * K + c + 1, where K is the branching
   factor fixed at construction.  Definitions follow src/lib.rs and
   src/traversal/walk.rs; parts of the crate whose sources are not present
   (Node/NodeMut/Entry navigation, the iterators) are modelled from the
   specification and marked as such. -/

namespace Etzynger

/-- The tree (struct EtzyngerTree in src/lib.rs): a flat array of optional
slots, the branching factor, and the stored count of occupied slots. -/
structure EtzyngerTree (N : Type) where
  nodes : List (Option N)
  maxChildrenPerNode : Nat
  len : Nat

/-- Creates a new tree (EtzyngerTree::new): one absent root slot, count 0. -/
def EtzyngerTree.new (N : Type) (maxChildrenPerNode : Nat) : EtzyngerTree N :=
  { nodes := [none], maxChildrenPerNode := maxChildrenPerNode, len := 0 }

/-- Clears the tree (EtzyngerTree::clear): truncate the array to one slot,
make it absent, reset the count. -/
def clear (t : EtzyngerTree N) : EtzyngerTree N :=
  { t with nodes := (t.nodes.take 1).set 0 none, len := 0 }

/-- Child position arithmetic (EtzyngerTree::child_index):
(parent * K) + child + 1.  The source performs no range check here. -/
def childIndex (maxChildren parent child : Nat) : Nat :=
  parent * maxChildren + child + 1

/-- Parent position arithmetic (EtzyngerTree::parent_index):
none for the root, (i - 1) / K otherwise. -/
def parentIndex (maxChildren child : Nat) : Option Nat :=
  if child = 0 then none else some ((child - 1) / maxChildren)

/-- Total form of the parent computation, (i - 1) / K.  On i > 0 it is the
value carried by parentIndex. -/
def parentIdxF (maxChildren i : Nat) : Nat := (i - 1) / maxChildren

/-- Reads slot i of the store; a position beyond the array reads as absent. -/
def slotAt (t : EtzyngerTree N) (i : Nat) : Option N := t.nodes.getD i none

/-- Whether slot i currently holds a value. -/
def occB (t : EtzyngerTree N) (i : Nat) : Bool := (slotAt t i).isSome

/-- The number of slots currently holding a value. -/
def countOccupied (t : EtzyngerTree N) : Nat :=
  t.nodes.countP (fun o => o.isSome)

/-- Growth-on-demand step of EtzyngerTree::set_value: push absent slots until
position index exists. -/
def growTo (t : EtzyngerTree N) (index : Nat) : EtzyngerTree N :=
  { t with nodes := t.nodes ++ List.replicate (index + 1 - t.nodes.length) none }

/-- One step of the cascading-clear loop of EtzyngerTree::set_value: replace
the slot with absence and decrement the count if it was occupied. -/
def removeIndex (t : EtzyngerTree N) (j : Nat) : EtzyngerTree N :=
  { t with nodes := t.nodes.set j none,
           len := if occB t j then t.len - 1 else t.len }

/-- Modelled from the spec: the post-order depth-first collection used by the
cascading clear of EtzyngerTree::set_value.  The DepthFirstIterator sources
are not under src/; per spec section 4.4 the traversal is rooted at the
cleared position, descends only through occupied slots, and collects every
occupied descendant position (children before their parent).  Fuel bounds the
recursion depth; the array length is always sufficient fuel because positions
strictly increase along any child chain. -/
def collectCascade (t : EtzyngerTree N) : Nat → Nat → List Nat
  | 0, _ => []
  | fuel + 1, i =>
      (List.range t.maxChildrenPerNode).flatMap fun c =>
        let ci := childIndex t.maxChildrenPerNode i c
        if occB t ci then collectCascade t fuel ci ++ [ci] else []

/-- Value assignment (EtzyngerTree::set_value): grow, replace the slot, then
update the count; writing absence over a present value triggers the cascading
clear of the whole subtree.  Returns the updated tree together with the
position of the NodeMut handle the source hands back. -/
def setValue (t : EtzyngerTree N) (index : Nat) (newValue : Option N) :
    EtzyngerTree N × Nat :=
  let t0 := growTo t index
  let oldValue := slotAt t0 index
  let t1 : EtzyngerTree N := { t0 with nodes := t0.nodes.set index newValue }
  if oldValue.isSome then
    if newValue.isNone then
      let t2 : EtzyngerTree N := { t1 with len := t1.len - 1 }
      ((collectCascade t2 t2.nodes.length index).foldl removeIndex t2, index)
    else (t1, index)
  else
    if newValue.isSome then ({ t1 with len := t1.len + 1 }, index)
    else (t1, index)

/-- Root value assignment (EtzyngerTree::set_root_value). -/
def setRootValue (t : EtzyngerTree N) (v : Option N) : EtzyngerTree N × Nat :=
  setValue t 0 v

/-- Child value assignment (EtzyngerTree::set_child_value): asserts the child
slot is below the branching factor (none models the panic), then writes at
the computed child position. -/
def setChildValue (t : EtzyngerTree N) (parent child : Nat) (newValue : Option N) :
    Option (EtzyngerTree N × Nat) :=
  if child < t.maxChildrenPerNode then
    some (setValue t (childIndex t.maxChildrenPerNode parent child) newValue)
  else none

/-- Removal (EtzyngerTree::remove): write absence at the position. -/
def remove (t : EtzyngerTree N) (index : Nat) : EtzyngerTree N :=
  (setValue t index none).1

/-- Occupancy-checked shared handle production (EtzyngerTree::node): a Node
is the pairing of the tree and a position, so the position is the handle. -/
def node (t : EtzyngerTree N) (index : Nat) : Option Nat :=
  if occB t index then some index else none

/-- Occupancy-checked exclusive handle production (EtzyngerTree::node_mut). -/
def nodeMut (t : EtzyngerTree N) (index : Nat) : Option Nat :=
  if occB t index then some index else none

/-- Root accessor (EtzyngerTree::root). -/
def root (t : EtzyngerTree N) : Option Nat := node t 0

/-- Parent accessor (EtzyngerTree::parent): parent position, then the
occupancy-checked node there. -/
def parentNode (t : EtzyngerTree N) (child : Nat) : Option Nat :=
  (parentIndex t.maxChildrenPerNode child).bind (node t)

/-- Direct child accessor (EtzyngerTree::child): computes the child position
with no range check of its own, then the occupancy-checked node there. -/
def childNode (t : EtzyngerTree N) (parent child : Nat) : Option Nat :=
  node t (childIndex t.maxChildrenPerNode parent child)

/- Basic store lemmas. -/

theorem slotAt_growTo (t : EtzyngerTree N) (i j : Nat) :
    slotAt (growTo t i) j = slotAt t j := by
  simp only [slotAt, growTo, List.getD_eq_getElem?_getD, List.getElem?_append]
  split
  · rfl
  · rw [List.getElem?_replicate,
      List.getElem?_eq_none (show t.nodes.length ≤ j by omega)]
    split <;> rfl

theorem growTo_len (t : EtzyngerTree N) (i : Nat) : (growTo t i).len = t.len := rfl

theorem growTo_max (t : EtzyngerTree N) (i : Nat) :
    (growTo t i).maxChildrenPerNode = t.maxChildrenPerNode := rfl

theorem growTo_length (t : EtzyngerTree N) (i : Nat) :
    (growTo t i).nodes.length = t.nodes.length + (i + 1 - t.nodes.length) := by
  simp [growTo]

theorem occB_lt (t : EtzyngerTree N) (j : Nat) (h : occB t j = true) :
    j < t.nodes.length := by
  by_contra hge
  rw [occB, slotAt, List.getD_eq_getElem?_getD, List.getElem?_eq_none (by omega)] at h
  simp at h

theorem slotAt_set (t : EtzyngerTree N) (i : Nat) (v : Option N)
    (h : i < t.nodes.length) (j : Nat) :
    slotAt { t with nodes := t.nodes.set i v } j
      = if j = i then v else slotAt t j := by
  by_cases hji : j = i
  · subst hji
    simp [slotAt, List.getD_eq_getElem?_getD, List.getElem?_set, h]
  · simp only [slotAt, List.getD_eq_getElem?_getD, List.getElem?_set]
    rw [if_neg (fun hh => hji hh.symm), if_neg hji]

/-- Claim C4: with branching factor K at least 1, child and parent position
arithmetic are mutual inverses: parent_index recovers the parent and
(i - 1) mod K the child slot from child_index, and child_index rebuilds any
nonzero position from its parent position and recovered slot. -/
theorem child_parent_index_inverse (K p c i : Nat) (hc : c < K) (hi : 0 < i) :
    (parentIndex K (childIndex K p c) = some p ∧ (childIndex K p c - 1) % K = c) ∧
    (parentIndex K i = some ((i - 1) / K) ∧
      childIndex K ((i - 1) / K) ((i - 1) % K) = i) := by
  have hK : 0 < K := Nat.lt_of_le_of_lt (Nat.zero_le c) hc
  refine ⟨⟨?_, ?_⟩, ?_, ?_⟩
  · rw [parentIndex, childIndex, if_neg (by omega)]
    rw [Nat.add_sub_cancel, Nat.mul_comm, Nat.mul_add_div hK, Nat.div_eq_of_lt hc]
    simp
  · rw [childIndex, Nat.add_sub_cancel, Nat.mul_comm, Nat.mul_add_mod,
      Nat.mod_eq_of_lt hc]
  · rw [parentIndex, if_neg (by omega)]
  · rw [childIndex]
    have h2 := Nat.div_add_mod (i - 1) K
    have h3 : (i - 1) / K * K = K * ((i - 1) / K) := Nat.mul_comm _ _
    omega

/-- Witness for C4 at K = 2, p = 3, c = 1, i = 9. -/
theorem child_parent_index_inverse_witness :
    (parentIndex 2 (childIndex 2 3 1) = some 3 ∧ (childIndex 2 3 1 - 1) % 2 = 1) ∧
    (parentIndex 2 9 = some ((9 - 1) / 2) ∧
      childIndex 2 ((9 - 1) / 2) ((9 - 1) % 2) = 9) :=
  child_parent_index_inverse 2 3 1 9 (by decide) (by decide)

/-- Claim C5, counterexample: the source child_index performs no range check;
with K = 2 it silently computes position 3 for the out-of-range slot c = 2 of
the root, the very position a valid access (parent 1, slot 0) addresses. -/
theorem child_index_no_range_check :
    childIndex 2 0 2 = 3 ∧ childIndex 2 1 0 = 3 := by decide

/-- Claim C5, amended: child access through set_child_value fails with a range
error (the assert in the source, modelled as none) for any child slot at or
beyond the branching factor, before any position is computed or written; the
raw child_index helper itself performs no check. -/
theorem set_child_value_range_error (t : EtzyngerTree N) (p c : Nat) (v : Option N)
    (hc : t.maxChildrenPerNode ≤ c) : setChildValue t p c v = none := by
  rw [setChildValue, if_neg (Nat.not_lt.mpr hc)]

/-- Witness for the amended C5 at K = 2, c = 2. -/
theorem set_child_value_range_error_witness :
    (EtzyngerTree.new Nat 2).maxChildrenPerNode ≤ 2 ∧
    setChildValue (EtzyngerTree.new Nat 2) 0 2 (some 5) = none :=
  ⟨by decide, set_child_value_range_error _ 0 2 (some 5) (by decide)⟩

/-- Claim C10: writing a present value over an occupied slot replaces only
that slot: the handle is at the written position, the count is unchanged, no
cascading clear runs, and every other slot holds exactly its previous
value. -/
theorem overwrite_present_frame (t : EtzyngerTree N) (i : Nat) (w : N)
    (h : occB t i = true) :
    (setValue t i (some w)).2 = i ∧
    (setValue t i (some w)).1.len = t.len ∧
    slotAt (setValue t i (some w)).1 i = some w ∧
    ∀ j, j ≠ i → slotAt (setValue t i (some w)).1 j = slotAt t j := by
  have hL : i < t.nodes.length := occB_lt t i h
  have hold : slotAt (growTo t i) i = slotAt t i := slotAt_growTo t i i
  have hsome : (slotAt (growTo t i) i).isSome = true := by
    rw [hold]; exact h
  have hiL : i < (growTo t i).nodes.length := by
    rw [growTo_length]; omega
  have hred : setValue t i (some w)
      = ({ growTo t i with nodes := (growTo t i).nodes.set i (some w) }, i) := by
    simp only [setValue, hsome, Option.isNone_some, Bool.false_eq_true,
      if_true, if_false]
  rw [hred]
  refine ⟨rfl, rfl, ?_, ?_⟩
  · rw [slotAt_set _ _ _ hiL, if_pos rfl]
  · intro j hj
    rw [slotAt_set _ _ _ hiL, if_neg hj, slotAt_growTo]

/-- Witness for C10 on a one-slot occupied tree. -/
theorem overwrite_present_frame_witness :
    occB (⟨[some 1], 1, 1⟩ : EtzyngerTree Nat) 0 = true ∧
    (setValue (⟨[some 1], 1, 1⟩ : EtzyngerTree Nat) 0 (some 9)).1.len
      = (⟨[some 1], 1, 1⟩ : EtzyngerTree Nat).len :=
  ⟨by decide, (overwrite_present_frame ⟨[some 1], 1, 1⟩ 0 9 (by decide)).2.1⟩

/-- Claim C6, counterexample: set_root_value with absence hands the caller a
NodeMut handle positioned at the root slot, which is absent. -/
theorem set_root_value_none_handle_absent :
    (setRootValue (EtzyngerTree.new Nat 2) none).2 = 0 ∧
    occB (setRootValue (EtzyngerTree.new Nat 2) none).1
      ((setRootValue (EtzyngerTree.new Nat 2) none).2) = false := by decide

/-- Claim C6, amended: every handle produced by the occupancy-checked
accessors (node, node_mut, and the parent and child accessors built on them)
refers to an occupied slot; the set_value family instead returns a handle at
the written position, which is absent when absence was written. -/
theorem checked_accessors_occupied (t : EtzyngerTree N) (i p c h : Nat) :
    (node t i = some h → occB t h = true) ∧
    (nodeMut t i = some h → occB t h = true) ∧
    (parentNode t i = some h → occB t h = true) ∧
    (childNode t p c = some h → occB t h = true) := by
  have hnode : ∀ k, node t k = some h → occB t h = true := by
    intro k hk
    by_cases hb : occB t k
    · rw [node, if_pos hb] at hk
      cases hk; exact hb
    · rw [node, if_neg hb] at hk
      cases hk
  refine ⟨hnode i, hnode i, ?_, hnode _⟩
  intro hp
  rcases Option.bind_eq_some.mp hp with ⟨q, _, hq⟩
  exact hnode q hq

/-- Witness for the amended C6 on a two-slot tree with both slots occupied. -/
theorem checked_accessors_occupied_witness :
    node (⟨[some 3, some 4], 2, 2⟩ : EtzyngerTree Nat) 0 = some 0 ∧
    occB (⟨[some 3, some 4], 2, 2⟩ : EtzyngerTree Nat) 0 = true :=
  ⟨by decide, (checked_accessors_occupied ⟨[some 3, some 4], 2, 2⟩ 0 0 0 0).1 (by decide)⟩

/- Walk protocol (src/traversal/walk.rs). -/

/-- The handler action vocabulary (WalkAction in src/traversal/walk.rs). -/
inductive WalkAction where
  | stop
  | parent
  | child (index : Nat)
deriving DecidableEq

/-- Modelled from the spec: a shared entry (entry.rs is not under src/), the
tagged occupied/vacant view the shared walk navigates over; a vacant entry
records its would-be parent position and child slot. -/
inductive Entry where
  | occupied (pos : Nat)
  | vacant (parentPos : Nat) (childSlot : Nat)
deriving DecidableEq

/-- Position an entry refers to. -/
def entryPos (K : Nat) : Entry → Nat
  | .occupied p => p
  | .vacant pp c => childIndex K pp c

/-- Modelled from the spec: Entry::parent (spec section 4.3): the occupied
node at the parent position when the entry is not at the root and that slot
is occupied; absent otherwise. -/
def entryParent (t : EtzyngerTree N) (e : Entry) : Option Nat :=
  let i := entryPos t.maxChildrenPerNode e
  if i = 0 then none
  else if occB t (parentIdxF t.maxChildrenPerNode i) then
    some (parentIdxF t.maxChildrenPerNode i)
  else none

/-- Modelled from the spec: Node::child_entry (spec section 4.3): a range
error (none) for a slot at or beyond the branching factor, otherwise the
occupied or vacant entry at the child position. -/
def childEntry (t : EtzyngerTree N) (pos c : Nat) : Option Entry :=
  if c < t.maxChildrenPerNode then
    some (if occB t (childIndex t.maxChildrenPerNode pos c)
      then .occupied (childIndex t.maxChildrenPerNode pos c)
      else .vacant pos c)
  else none

/-- The shared walk loop of Walkable for Entry (src/traversal/walk.rs lines
29-53), with the handler represented by the finite list of actions it issues
(an exhausted list acts as Stop).  Exactly as in the source, the Parent
branch consults the parent of the starting entry (self), not of the current
entry.  The result is none when a navigation step panics. -/
def walkSharedLoop (t : EtzyngerTree N) (start : Entry) :
    List WalkAction → Entry → Option Entry
  | [], current => some current
  | WalkAction.stop :: _, current => some current
  | WalkAction.parent :: rest, current =>
      match entryParent t start with
      | some p => walkSharedLoop t start rest (.occupied p)
      | none => some current
  | WalkAction.child c :: rest, current =>
      match current with
      | .occupied pos => (childEntry t pos c).bind (walkSharedLoop t start rest)
      | .vacant _ _ => some current

/-- Walkable::walk for Entry: run the loop with current starting at self. -/
def walkShared (t : EtzyngerTree N) (actions : List WalkAction) (e : Entry) :
    Option Entry :=
  walkSharedLoop t e actions e

/-- Follows the claim and spec wording, for comparison with the source: the
same loop but with Parent moving to the parent of the current entry. -/
def walkSharedSpecLoop (t : EtzyngerTree N) :
    List WalkAction → Entry → Option Entry
  | [], current => some current
  | WalkAction.stop :: _, current => some current
  | WalkAction.parent :: rest, current =>
      match entryParent t current with
      | some p => walkSharedSpecLoop t rest (.occupied p)
      | none => some current
  | WalkAction.child c :: rest, current =>
      match current with
      | .occupied pos => (childEntry t pos c).bind (walkSharedSpecLoop t rest)
      | .vacant _ _ => some current

/-- The claim-faithful shared walk, for comparison. -/
def walkSharedSpec (t : EtzyngerTree N) (actions : List WalkAction) (e : Entry) :
    Option Entry :=
  walkSharedSpecLoop t actions e

/-- A small concrete tree with branching factor 2: positions 0, 1 and 3
occupied (3 is child 0 of 1, which is child 0 of 0). -/
def walkExampleTree : EtzyngerTree Nat :=
  { nodes := [some 10, some 20, none, some 30], maxChildrenPerNode := 2, len := 3 }

/-- Claim C2: the source walk, started at the occupied entry at position 1
and driven by Child 0 then Parent, ends at position 0: the Parent action
moved to the parent of the starting entry (position 1), not of the current
entry (position 3, whose parent is 1).  The claim-faithful loop ends back at
position 1. -/
theorem walk_parent_uses_start_entry :
    walkShared walkExampleTree [WalkAction.child 0, WalkAction.parent]
      (Entry.occupied 1) = some (Entry.occupied 0) ∧
    walkSharedSpec walkExampleTree [WalkAction.child 0, WalkAction.parent]
      (Entry.occupied 1) = some (Entry.occupied 1) := by decide

/-- Modelled from the spec: an exclusive entry handle (entry.rs is not under
src/), reduced to the data the exclusive walk needs: its position and the
position at which its exclusive borrow session began (the traversal root).
Occupancy is read from the tree. -/
structure EntryMut where
  pos : Nat
  sroot : Nat
deriving DecidableEq

/-- Modelled from the spec: EntryMut::to_parent (spec section 4.3): fails,
returning the handle unchanged, at the session start (and at the root, which
has no parent); otherwise moves to the parent position. -/
def toParentM (K : Nat) (e : EntryMut) : Except EntryMut EntryMut :=
  if e.pos = e.sroot then .error e
  else if e.pos = 0 then .error e
  else .ok ⟨parentIdxF K e.pos, e.sroot⟩

/-- Modelled from the spec: NodeMut::to_child_entry (spec section 4.3): a
range error (none models the panic) at or beyond the branching factor,
otherwise the handle at the child position. -/
def toChildEntryM (K : Nat) (e : EntryMut) (c : Nat) : Option EntryMut :=
  if c < K then some ⟨childIndex K e.pos c, e.sroot⟩ else none

/-- The exclusive walk loop of WalkableMut for EntryMut (src/traversal/walk.rs
lines 124-153): the net depth counter levels, Parent at levels = 0
terminates, Child on an occupied entry descends and increments levels, Child
on a vacant entry terminates; none models a panic. -/
def walkMutLoop (t : EtzyngerTree N) :
    List WalkAction → Nat → EntryMut → Option (Nat × EntryMut)
  | [], levels, current => some (levels, current)
  | WalkAction.stop :: _, levels, current => some (levels, current)
  | WalkAction.parent :: rest, levels, current =>
      if levels = 0 then some (levels, current)
      else
        match toParentM t.maxChildrenPerNode current with
        | .ok p => walkMutLoop t rest (levels - 1) p
        | .error x => some (levels, x)
  | WalkAction.child c :: rest, levels, current =>
      if occB t current.pos then
        match toChildEntryM t.maxChildrenPerNode current c with
        | some ch => walkMutLoop t rest (levels + 1) ch
        | none => none
      else some (levels, current)

/-- The restoration loop after the handler terminates (walk.rs lines
155-161): move to the parent exactly levels times; the source expects every
move to succeed (none models the expect panic). -/
def restoreM (K : Nat) : Nat → EntryMut → Option EntryMut
  | 0, current => some current
  | l + 1, current =>
      match toParentM K current with
      | .ok p => restoreM K l p
      | .error _ => none

/-- WalkableMut::walk_mut for EntryMut: run the handler loop from net depth
0, then walk back up levels times. -/
def walkMut (t : EtzyngerTree N) (actions : List WalkAction) (e : EntryMut) :
    Option EntryMut :=
  (walkMutLoop t actions 0 e).bind fun r => restoreM t.maxChildrenPerNode r.1 r.2

/-- Whether every Child action in the list names a slot below the branching
factor. -/
def childSlotsValid (K : Nat) (actions : List WalkAction) : Bool :=
  actions.all fun a =>
    match a with
    | WalkAction.child c => decide (c < K)
    | _ => true

/-- Reaching a position from a base position by a number of child steps. -/
inductive DescL (K : Nat) : Nat → Nat → Nat → Prop where
  | refl (p : Nat) : DescL K 0 p p
  | step {l b p c : Nat} : DescL K l b p → c < K →
      DescL K (l + 1) b (childIndex K p c)

theorem childIndex_gt_self (K p c : Nat) (hc : c < K) : p < childIndex K p c := by
  have hK : 0 < K := Nat.lt_of_le_of_lt (Nat.zero_le c) hc
  have : p * 1 ≤ p * K := Nat.mul_le_mul_left p hK
  rw [childIndex]; omega

theorem parentIdxF_childIndex (K p c : Nat) (hc : c < K) :
    parentIdxF K (childIndex K p c) = p := by
  have hK : 0 < K := Nat.lt_of_le_of_lt (Nat.zero_le c) hc
  rw [parentIdxF, childIndex, Nat.add_sub_cancel, Nat.mul_comm, Nat.mul_add_div hK,
    Nat.div_eq_of_lt hc, Nat.add_zero]

theorem descL_le {K l b p : Nat} (h : DescL K l b p) : b ≤ p := by
  induction h with
  | refl => exact Nat.le_refl _
  | step h hc ih => exact Nat.le_of_lt (Nat.lt_of_le_of_lt ih (childIndex_gt_self _ _ _ hc))

theorem descL_zero {K b p : Nat} (h : DescL K 0 b p) : b = p := by
  cases h; rfl

theorem descL_succ {K l b p : Nat} (h : DescL K (l + 1) b p) :
    ∃ p2 c, c < K ∧ p = childIndex K p2 c ∧ DescL K l b p2 := by
  cases h with
  | step h hc => exact ⟨_, _, hc, rfl, h⟩

theorem restoreM_of_descL (K b rt : Nat) (hbr : rt ≤ b) :
    ∀ l (cur : EntryMut), DescL K l b cur.pos → cur.sroot = rt →
      restoreM K l cur = some ⟨b, rt⟩ := by
  intro l
  induction l with
  | zero =>
    intro cur h hrt
    obtain ⟨p, r⟩ := cur
    simp only at hrt
    have := descL_zero h
    simp only at this
    subst hrt; cases this; rfl
  | succ l ih =>
    intro cur h hrt
    obtain ⟨p2, c, hc, hpe, hd⟩ := descL_succ h
    have hgt : b < cur.pos := by
      have h1 := descL_le hd
      have h2 := childIndex_gt_self K p2 c hc
      omega
    have h1 : cur.pos ≠ cur.sroot := by rw [hrt]; omega
    have h2 : cur.pos ≠ 0 := by omega
    simp only [restoreM, toParentM, if_neg h1, if_neg h2]
    have hpp : parentIdxF K cur.pos = p2 := by
      rw [hpe]; exact parentIdxF_childIndex K p2 c hc
    rw [hpp, hrt]
    exact ih ⟨p2, rt⟩ hd rfl

theorem walkMutLoop_inv (t : EtzyngerTree N) (b rt : Nat) (hbr : rt ≤ b) :
    ∀ (actions : List WalkAction) (l : Nat) (cur : EntryMut),
      DescL t.maxChildrenPerNode l b cur.pos → cur.sroot = rt →
      (∀ r, walkMutLoop t actions l cur = some r →
        DescL t.maxChildrenPerNode r.1 b r.2.pos ∧ r.2.sroot = rt) ∧
      (childSlotsValid t.maxChildrenPerNode actions = true →
        (walkMutLoop t actions l cur).isSome = true) := by
  intro actions
  induction actions with
  | nil =>
    intro l cur hd hrt
    exact ⟨fun r hr => by cases hr; exact ⟨hd, hrt⟩, fun _ => rfl⟩
  | cons a rest ih =>
    intro l cur hd hrt
    match a with
    | WalkAction.stop =>
      exact ⟨fun r hr => by cases hr; exact ⟨hd, hrt⟩, fun _ => rfl⟩
    | WalkAction.parent =>
      by_cases hl : l = 0
      · subst hl
        simp only [walkMutLoop, if_pos rfl]
        exact ⟨fun r hr => by cases hr; exact ⟨hd, hrt⟩, fun _ => rfl⟩
      · obtain ⟨l2, rfl⟩ : ∃ l2, l = l2 + 1 := ⟨l - 1, by omega⟩
        obtain ⟨p2, c, hc, hpe, hd2⟩ := descL_succ hd
        have hgt : b < cur.pos := by
          have h1 := descL_le hd2
          have h2 := childIndex_gt_self t.maxChildrenPerNode p2 c hc
          omega
        have h1 : cur.pos ≠ cur.sroot := by rw [hrt]; omega
        have h2 : cur.pos ≠ 0 := by omega
        simp only [walkMutLoop, if_neg hl, toParentM, if_neg h1, if_neg h2,
          Nat.add_sub_cancel]
        have hpp : parentIdxF t.maxChildrenPerNode cur.pos = p2 := by
          rw [hpe]; exact parentIdxF_childIndex _ p2 c hc
        rw [hpp]
        have hrec := ih l2 ⟨p2, cur.sroot⟩ (by simpa using hd2) hrt
        refine ⟨hrec.1, fun hv => hrec.2 ?_⟩
        simp only [childSlotsValid, List.all_cons, Bool.and_eq_true] at hv
        exact (by simp only [childSlotsValid]; exact hv.2)
    | WalkAction.child c =>
      by_cases ho : occB t cur.pos
      · by_cases hcK : c < t.maxChildrenPerNode
        · simp only [walkMutLoop, if_pos ho, toChildEntryM, if_pos hcK]
          have hrec := ih (l + 1)
            ⟨childIndex t.maxChildrenPerNode cur.pos c, cur.sroot⟩
            (by simpa using DescL.step hd hcK) hrt
          refine ⟨hrec.1, fun hv => hrec.2 ?_⟩
          simp only [childSlotsValid, List.all_cons, Bool.and_eq_true] at hv
          exact (by simp only [childSlotsValid]; exact hv.2)
        · simp only [walkMutLoop, if_pos ho, toChildEntryM, if_neg hcK]
          constructor
          · intro r hr
            cases hr
          · intro hv
            simp only [childSlotsValid, List.all_cons, Bool.and_eq_true] at hv
            exact absurd (of_decide_eq_true hv.1) hcK
      · simp only [walkMutLoop, if_neg ho]
        exact ⟨fun r hr => by cases hr; exact ⟨hd, hrt⟩, fun _ => rfl⟩

/-- Claim C3: for every starting exclusive entry whose session root is at or
above it and every finite sequence of handler actions, whenever the
exclusive walk returns a handle it is positioned exactly at the position the
walk started from; and the walk does return a handle whenever every Child
action names a slot below the branching factor (in particular Parent at net
depth 0 terminates without moving above the start). -/
theorem walk_mut_returns_to_start (t : EtzyngerTree N) (actions : List WalkAction)
    (e : EntryMut) (h : e.sroot ≤ e.pos) :
    (∀ r, walkMut t actions e = some r → r.pos = e.pos ∧ r.sroot = e.sroot) ∧
    (childSlotsValid t.maxChildrenPerNode actions = true →
      (walkMut t actions e).isSome = true) := by
  have hinv := walkMutLoop_inv t e.pos e.sroot h actions 0 e (DescL.refl _) rfl
  constructor
  · intro r hr
    rw [walkMut] at hr
    rcases Option.bind_eq_some.mp hr with ⟨q, hq, hrest⟩
    obtain ⟨hdq, hsq⟩ := hinv.1 q hq
    rw [restoreM_of_descL t.maxChildrenPerNode e.pos e.sroot h q.1 q.2 hdq hsq] at hrest
    cases hrest; exact ⟨rfl, rfl⟩
  · intro hv
    obtain ⟨q, hq⟩ := Option.isSome_iff_exists.mp (hinv.2 hv)
    obtain ⟨hdq, hsq⟩ := hinv.1 q hq
    rw [walkMut, hq]
    show (restoreM t.maxChildrenPerNode q.1 q.2).isSome = true
    rw [restoreM_of_descL t.maxChildrenPerNode e.pos e.sroot h q.1 q.2 hdq hsq]
    rfl

/-- Witness for C3: the claim's own scenario, Child 0, Child 0, Stop from the
root of the concrete tree, comes back with a handle at the start. -/
theorem walk_mut_returns_to_start_witness :
    (⟨0, 0⟩ : EntryMut).sroot ≤ (⟨0, 0⟩ : EntryMut).pos ∧
    childSlotsValid walkExampleTree.maxChildrenPerNode
      [WalkAction.child 0, WalkAction.child 0, WalkAction.stop] = true ∧
    (walkMut walkExampleTree
      [WalkAction.child 0, WalkAction.child 0, WalkAction.stop]
      ⟨0, 0⟩).isSome = true :=
  ⟨by decide, by decide,
    (walk_mut_returns_to_start walkExampleTree
      [WalkAction.child 0, WalkAction.child 0, WalkAction.stop]
      ⟨0, 0⟩ (by decide)).2 (by decide)⟩

/- Ancestor chains, descendants, and the two store invariants. -/

theorem parentIdxF_lt (K j : Nat) (h : 0 < j) : parentIdxF K j < j := by
  rw [parentIdxF]
  have := Nat.div_le_self (j - 1) K
  omega

/-- Fueled ancestor chain: the positions visited climbing parentIdxF from j
(j itself excluded) down to the root. -/
def ancListF (K : Nat) : Nat → Nat → List Nat
  | 0, _ => []
  | fuel + 1, j =>
      if j = 0 then []
      else parentIdxF K j :: ancListF K fuel (parentIdxF K j)

/-- Ancestor chain of position j under branching factor K. -/
def ancList (K j : Nat) : List Nat := ancListF K j j

theorem ancListF_congr (K : Nat) :
    ∀ f1 f2 j, j ≤ f1 → j ≤ f2 → ancListF K f1 j = ancListF K f2 j := by
  intro f1
  induction f1 with
  | zero =>
    intro f2 j h1 h2
    obtain rfl : j = 0 := by omega
    cases f2 <;> rfl
  | succ f1 ih =>
    intro f2 j h1 h2
    by_cases hj0 : j = 0
    · subst hj0; cases f2 <;> rfl
    · obtain ⟨f3, rfl⟩ : ∃ f3, f2 = f3 + 1 := ⟨f2 - 1, by omega⟩
      have hp : parentIdxF K j < j := parentIdxF_lt K j (by omega)
      show (if j = 0 then [] else _) = (if j = 0 then [] else _)
      rw [if_neg hj0, if_neg hj0]
      rw [ih f3 _ (by omega) (by omega)]

theorem ancListF_eq (K f j : Nat) (h : j ≤ f) : ancListF K f j = ancList K j :=
  ancListF_congr K f j j h (Nat.le_refl j)

theorem ancList_zero (K : Nat) : ancList K 0 = [] := rfl

theorem ancList_succ (K j : Nat) (h : 0 < j) :
    ancList K j = parentIdxF K j :: ancList K (parentIdxF K j) := by
  have hp : parentIdxF K j < j := parentIdxF_lt K j h
  obtain ⟨j2, rfl⟩ : ∃ j2, j = j2 + 1 := ⟨j - 1, by omega⟩
  rw [ancList]
  show (if j2 + 1 = 0 then [] else _) = _
  rw [if_neg (by omega)]
  rw [ancListF_eq K j2 _ (by omega)]

theorem ancList_childIndex (K p c : Nat) (hc : c < K) :
    ancList K (childIndex K p c) = p :: ancList K p := by
  rw [ancList_succ K _ (by rw [childIndex]; omega), parentIdxF_childIndex K p c hc]

theorem mem_ancList_lt (K : Nat) : ∀ j i, i ∈ ancList K j → i < j := by
  intro j
  induction j using Nat.strong_induction_on with
  | _ j ih =>
    intro i hi
    by_cases hj0 : j = 0
    · subst hj0; cases hi
    · rw [ancList_succ K j (by omega)] at hi
      have hp : parentIdxF K j < j := parentIdxF_lt K j (by omega)
      rcases List.mem_cons.mp hi with rfl | hi2
      · exact hp
      · exact Nat.lt_trans (ih _ hp i hi2) hp

/-- Position j is a strict descendant of position i in the layout arithmetic:
i appears on the parent chain of j. -/
abbrev IsDesc (K i j : Nat) : Prop := i ∈ ancList K j

/-- The number of occupied strict descendants of position i. -/
def countOccDesc (t : EtzyngerTree N) (i : Nat) : Nat :=
  (List.range t.nodes.length).countP fun j =>
    occB t j && decide (IsDesc t.maxChildrenPerNode i j)

/-- Invariant I1: the stored count equals the number of occupied slots. -/
abbrev I1 (t : EtzyngerTree N) : Prop := t.len = countOccupied t

/-- Invariant I2: a non-root slot holds a value only if its parent slot
does. -/
abbrev I2 (t : EtzyngerTree N) : Prop :=
  ∀ j < t.nodes.length, 0 < j → occB t j = true →
    occB t (parentIdxF t.maxChildrenPerNode j) = true

/- Counting helper lemmas. -/

theorem countP_eq_range (l : List (Option N)) :
    l.countP (fun o => o.isSome)
      = (List.range l.length).countP (fun j => (l.getD j none).isSome) := by
  induction l with
  | nil => rfl
  | cons a tl ih =>
    rw [List.countP_cons, List.length_cons, List.range_succ_eq_map,
      List.countP_cons, List.countP_map, ih]
    have : (List.range tl.length).countP
        ((fun j => ((a :: tl).getD j none).isSome) ∘ Nat.succ)
        = (List.range tl.length).countP (fun j => (tl.getD j none).isSome) := by
      refine List.countP_congr fun x _ => ?_
      simp [Function.comp, List.getD_cons_succ]
    rw [this, List.getD_cons_zero]

theorem countOccupied_eq_range (t : EtzyngerTree N) :
    countOccupied t = (List.range t.nodes.length).countP (fun j => occB t j) :=
  countP_eq_range t.nodes

theorem countP_split (l : List α) (p q : α → Bool) :
    l.countP p = l.countP (fun a => q a && p a) + l.countP (fun a => !q a && p a) := by
  induction l with
  | nil => rfl
  | cons a tl ih =>
    rw [List.countP_cons, List.countP_cons, List.countP_cons, ih]
    cases hq : q a <;> cases hp : p a <;> simp [hq, hp] <;> omega

theorem countP_range_flip (L i : Nat) (f g : Nat → Bool) (hiL : i < L)
    (hfi : f i = true) (hgi : g i = false) (hother : ∀ j, j ≠ i → f j = g j) :
    (List.range L).countP f = (List.range L).countP g + 1 := by
  induction L with
  | zero => omega
  | succ M ih =>
    rw [List.range_succ, List.countP_append, List.countP_append]
    by_cases hiM : i = M
    · subst hiM
      have heq : (List.range i).countP f = (List.range i).countP g := by
        refine List.countP_congr fun x hx => ?_
        rw [hother x (by rcases List.mem_range.mp hx with h; omega)]
      have h1 : [i].countP f = 1 := by simp [List.countP_cons, hfi]
      have h2 : [i].countP g = 0 := by simp [List.countP_cons, hgi]
      rw [heq, h1, h2]
    · have hfg : f M = g M := hother M (fun h => hiM h.symm)
      have h3 : [M].countP f = [M].countP g := by
        simp [List.countP_cons, hfg]
      rw [h3, ih (by omega)]
      omega

/- Occupied child chains: the positions the cascading clear can reach. -/

/-- Position reachable from i through a nonempty chain of occupied child
slots. -/
inductive OccChain (t : EtzyngerTree N) (i : Nat) : Nat → Prop where
  | base {c : Nat} : c < t.maxChildrenPerNode →
      occB t (childIndex t.maxChildrenPerNode i c) = true →
      OccChain t i (childIndex t.maxChildrenPerNode i c)
  | step {j c : Nat} : OccChain t i j → c < t.maxChildrenPerNode →
      occB t (childIndex t.maxChildrenPerNode j c) = true →
      OccChain t i (childIndex t.maxChildrenPerNode j c)

theorem occChain_occ {t : EtzyngerTree N} {i j : Nat} (h : OccChain t i j) :
    occB t j = true := by
  cases h with
  | base _ ho => exact ho
  | step _ _ ho => exact ho

theorem occChain_isDesc {t : EtzyngerTree N} {i j : Nat} (h : OccChain t i j) :
    IsDesc t.maxChildrenPerNode i j := by
  induction h with
  | base hc _ =>
    rw [IsDesc, ancList_childIndex _ _ _ hc]
    exact List.mem_cons_self _ _
  | step _ hc _ ih =>
    rw [IsDesc, ancList_childIndex _ _ _ hc]
    exact List.mem_cons_of_mem _ ih

theorem isDesc_lt {K i j : Nat} (h : IsDesc K i j) : i < j :=
  mem_ancList_lt K j i h

theorem occChain_absorb {t : EtzyngerTree N} {i c j : Nat}
    (h : OccChain t (childIndex t.maxChildrenPerNode i c) j)
    (hc : c < t.maxChildrenPerNode)
    (ho : occB t (childIndex t.maxChildrenPerNode i c) = true) :
    OccChain t i j := by
  induction h with
  | base hc2 ho2 => exact OccChain.step (OccChain.base hc ho) hc2 ho2
  | step _ hc2 ho2 ih => exact OccChain.step ih hc2 ho2

theorem occChain_first {t : EtzyngerTree N} {i j : Nat} (h : OccChain t i j) :
    ∃ c, c < t.maxChildrenPerNode ∧
      occB t (childIndex t.maxChildrenPerNode i c) = true ∧
      (j = childIndex t.maxChildrenPerNode i c ∨
        OccChain t (childIndex t.maxChildrenPerNode i c) j) := by
  induction h with
  | base hc ho => exact ⟨_, hc, ho, Or.inl rfl⟩
  | step _ hc2 ho2 ih =>
    obtain ⟨c, hc, ho, hcase⟩ := ih
    refine ⟨c, hc, ho, Or.inr ?_⟩
    rcases hcase with rfl | hrec
    · exact OccChain.base hc2 ho2
    · exact OccChain.step hrec hc2 ho2

theorem occChain_of_le {t : EtzyngerTree N} {i j : Nat}
    (hL : t.nodes.length ≤ i) (h : OccChain t i j) : False := by
  induction h with
  | base hc ho =>
    have h1 := occB_lt _ _ ho
    have h2 := childIndex_gt_self t.maxChildrenPerNode i _ hc
    omega
  | step _ _ _ ih => exact ih

theorem mem_collectCascade (t : EtzyngerTree N) :
    ∀ fuel i, t.nodes.length ≤ fuel + i →
      ∀ j, j ∈ collectCascade t fuel i ↔ OccChain t i j := by
  intro fuel
  induction fuel with
  | zero =>
    intro i hL j
    constructor
    · intro hj; cases hj
    · intro hc; exact absurd hc (fun hc => occChain_of_le (by omega) hc)
  | succ fuel ih =>
    intro i hL j
    simp only [collectCascade, List.mem_flatMap, List.mem_range]
    constructor
    · rintro ⟨c, hc, hj⟩
      by_cases ho : occB t (childIndex t.maxChildrenPerNode i c)
      · rw [if_pos ho] at hj
        have hgt := childIndex_gt_self t.maxChildrenPerNode i c hc
        rcases List.mem_append.mp hj with hj1 | hj2
        · have hch := (ih (childIndex t.maxChildrenPerNode i c) (by omega) j).mp hj1
          exact occChain_absorb hch hc ho
        · have hje : j = childIndex t.maxChildrenPerNode i c :=
            List.mem_singleton.mp hj2
          exact hje ▸ OccChain.base hc ho
      · rw [if_neg ho] at hj
        cases hj
    · intro hcj
      obtain ⟨c, hc, ho, hcase⟩ := occChain_first hcj
      have hgt := childIndex_gt_self t.maxChildrenPerNode i c hc
      refine ⟨c, hc, ?_⟩
      rw [if_pos ho]
      rcases hcase with rfl | hrec
      · exact List.mem_append.mpr (Or.inr (List.mem_singleton.mpr rfl))
      · exact List.mem_append.mpr
          (Or.inl ((ih (childIndex t.maxChildrenPerNode i c) (by omega) j).mpr hrec))

theorem collectCascade_K0 (t : EtzyngerTree N) (hK : t.maxChildrenPerNode = 0) :
    ∀ fuel i, collectCascade t fuel i = [] := by
  intro fuel i
  cases fuel with
  | zero => rfl
  | succ fuel => simp [collectCascade, hK]

/- The removal fold: slot characterization and I1 preservation. -/

theorem slotAt_removeIndex (t : EtzyngerTree N) (a j : Nat) :
    slotAt (removeIndex t a) j = if j = a then none else slotAt t j := by
  simp only [removeIndex, slotAt, List.getD_eq_getElem?_getD, List.getElem?_set]
  by_cases hja : j = a
  · subst hja
    rw [if_pos rfl, if_pos rfl]
    split <;> rfl
  · rw [if_neg (fun hh => hja hh.symm), if_neg hja]

theorem occB_removeIndex (t : EtzyngerTree N) (a j : Nat) :
    occB (removeIndex t a) j = if j = a then false else occB t j := by
  rw [occB, slotAt_removeIndex]
  split <;> rfl

theorem length_removeIndex (t : EtzyngerTree N) (a : Nat) :
    (removeIndex t a).nodes.length = t.nodes.length := by
  simp [removeIndex]

theorem max_removeIndex (t : EtzyngerTree N) (a : Nat) :
    (removeIndex t a).maxChildrenPerNode = t.maxChildrenPerNode := rfl

theorem removeIndex_I1 (t : EtzyngerTree N) (a : Nat) (h : I1 t) :
    I1 (removeIndex t a) := by
  by_cases ho : occB t a
  · have hcnt : countOccupied t = countOccupied (removeIndex t a) + 1 := by
      rw [countOccupied_eq_range, countOccupied_eq_range, length_removeIndex]
      exact countP_range_flip _ a _ _ (occB_lt t a ho) ho
        (by rw [occB_removeIndex, if_pos rfl])
        (fun j hj => by rw [occB_removeIndex, if_neg hj])
    have hlen : (removeIndex t a).len = t.len - 1 := by
      simp [removeIndex, ho]
    rw [I1] at h ⊢
    omega
  · have hcnt : countOccupied (removeIndex t a) = countOccupied t := by
      rw [countOccupied_eq_range, countOccupied_eq_range, length_removeIndex]
      refine List.countP_congr fun j _ => ?_
      rw [occB_removeIndex]
      by_cases hja : j = a
      · subst hja
        simp only [if_pos rfl]
        constructor
        · intro hh; cases hh
        · intro hh; exact absurd hh ho
      · rw [if_neg hja]
    have hlen : (removeIndex t a).len = t.len := by
      simp [removeIndex, ho]
    rw [I1] at h ⊢
    omega

theorem slotAt_foldl_remove (l : List Nat) :
    ∀ (t : EtzyngerTree N) j,
      slotAt (l.foldl removeIndex t) j = if j ∈ l then none else slotAt t j := by
  induction l with
  | nil => intro t j; simp
  | cons a tl ih =>
    intro t j
    rw [List.foldl_cons, ih]
    by_cases hj : j ∈ tl
    · simp [hj, List.mem_cons]
    · rw [if_neg hj, slotAt_removeIndex]
      by_cases hja : j = a
      · simp [hja, List.mem_cons]
      · simp [hja, hj, List.mem_cons]

theorem length_foldl_remove (l : List Nat) :
    ∀ (t : EtzyngerTree N), (l.foldl removeIndex t).nodes.length = t.nodes.length := by
  induction l with
  | nil => intro t; rfl
  | cons a tl ih => intro t; rw [List.foldl_cons, ih, length_removeIndex]

theorem max_foldl_remove (l : List Nat) :
    ∀ (t : EtzyngerTree N),
      (l.foldl removeIndex t).maxChildrenPerNode = t.maxChildrenPerNode := by
  induction l with
  | nil => intro t; rfl
  | cons a tl ih => intro t; rw [List.foldl_cons, ih, max_removeIndex]

theorem foldl_remove_I1 (l : List Nat) :
    ∀ (t : EtzyngerTree N), I1 t → I1 (l.foldl removeIndex t) := by
  induction l with
  | nil => intro t h; exact h
  | cons a tl ih => intro t h; exact ih _ (removeIndex_I1 t a h)

theorem occChain_of_desc (t t2 : EtzyngerTree N) (i : Nat)
    (hK : 0 < t.maxChildrenPerNode)
    (hKeq : t2.maxChildrenPerNode = t.maxChildrenPerNode)
    (hI2 : I2 t)
    (hsame : ∀ x, x ≠ i → occB t2 x = occB t x) :
    ∀ j, IsDesc t.maxChildrenPerNode i j → occB t j = true → OccChain t2 i j := by
  intro j
  induction j using Nat.strong_induction_on with
  | _ j ihj =>
    intro hdesc hocc
    have hj0 : 0 < j := by
      rcases Nat.eq_zero_or_pos j with rfl | h
      · rw [IsDesc, ancList_zero] at hdesc; cases hdesc
      · exact h
    have hjL : j < t.nodes.length := occB_lt t j hocc
    have hp : parentIdxF t.maxChildrenPerNode j < j := parentIdxF_lt _ j hj0
    have hcK : (j - 1) % t.maxChildrenPerNode < t.maxChildrenPerNode :=
      Nat.mod_lt _ hK
    have hje : childIndex t.maxChildrenPerNode (parentIdxF t.maxChildrenPerNode j)
        ((j - 1) % t.maxChildrenPerNode) = j := by
      rw [childIndex, parentIdxF]
      have h2 := Nat.div_add_mod (j - 1) t.maxChildrenPerNode
      have h3 : (j - 1) / t.maxChildrenPerNode * t.maxChildrenPerNode
          = t.maxChildrenPerNode * ((j - 1) / t.maxChildrenPerNode) :=
        Nat.mul_comm _ _
      omega
    rw [IsDesc, ancList_succ _ j hj0] at hdesc
    rcases List.mem_cons.mp hdesc with hip | hip
    · have hji : j ≠ i := by omega
      have hcc : childIndex t2.maxChildrenPerNode i
          ((j - 1) % t.maxChildrenPerNode) = j := by
        rw [hKeq, hip]; exact hje
      rw [← hcc]
      refine OccChain.base (by rw [hKeq]; exact hcK) ?_
      rw [hcc, hsame j hji]; exact hocc
    · have hipp : i < parentIdxF t.maxChildrenPerNode j := mem_ancList_lt _ _ _ hip
      have hop : occB t (parentIdxF t.maxChildrenPerNode j) = true := hI2 j hjL hj0 hocc
      have hcp : OccChain t2 i (parentIdxF t.maxChildrenPerNode j) := ihj _ hp hip hop
      have hji : j ≠ i := by omega
      have hcc : childIndex t2.maxChildrenPerNode (parentIdxF t.maxChildrenPerNode j)
          ((j - 1) % t.maxChildrenPerNode) = j := by
        rw [hKeq]; exact hje
      rw [← hcc]
      refine OccChain.step hcp (by rw [hKeq]; exact hcK) ?_
      rw [hcc, hsame j hji]; exact hocc

/- Case analysis of setValue. -/

theorem slotAt_eq_none_of_not_occB (t : EtzyngerTree N) (i : Nat)
    (h : occB t i = false) : slotAt t i = none := by
  cases h2 : slotAt t i with
  | none => rfl
  | some w => rw [occB, h2] at h; cases h

theorem setValue_some_parts (t : EtzyngerTree N) (i : Nat) (w : N) :
    (setValue t i (some w)).2 = i ∧
    (setValue t i (some w)).1.maxChildrenPerNode = t.maxChildrenPerNode ∧
    (setValue t i (some w)).1.nodes.length
      = t.nodes.length + (i + 1 - t.nodes.length) ∧
    (setValue t i (some w)).1.len = (if occB t i then t.len else t.len + 1) ∧
    ∀ j, slotAt (setValue t i (some w)).1 j = if j = i then some w else slotAt t j := by
  have hiL : i < (growTo t i).nodes.length := by rw [growTo_length]; omega
  by_cases ho : occB t i
  · have hsome : (slotAt (growTo t i) i).isSome = true := by
      rw [slotAt_growTo]; exact ho
    have hred : setValue t i (some w)
        = ({ growTo t i with nodes := (growTo t i).nodes.set i (some w) }, i) := by
      simp only [setValue, hsome, Option.isNone_some, Bool.false_eq_true,
        if_true, if_false]
    rw [hred]
    refine ⟨rfl, rfl, by simp [growTo_length], by rw [if_pos ho]; rfl, ?_⟩
    intro j
    rw [slotAt_set _ _ _ hiL, slotAt_growTo]
  · have hof : occB t i = false := by
      cases h2 : occB t i
      · rfl
      · exact absurd h2 ho
    have hnone : (slotAt (growTo t i) i).isSome = false := by
      rw [slotAt_growTo]
      exact hof
    have hred : setValue t i (some w)
        = ({ growTo t i with
             nodes := (growTo t i).nodes.set i (some w),
             len := (growTo t i).len + 1 }, i) := by
      simp only [setValue, hnone, Bool.false_eq_true, if_false, Option.isSome_some,
        if_true]
    rw [hred]
    refine ⟨rfl, rfl, by simp [growTo_length], by rw [if_neg ho]; rfl, ?_⟩
    intro j
    have e1 : slotAt ({ growTo t i with
        nodes := (growTo t i).nodes.set i (some w),
        len := (growTo t i).len + 1 } : EtzyngerTree N) j
        = slotAt { growTo t i with nodes := (growTo t i).nodes.set i (some w) } j := rfl
    rw [e1, slotAt_set _ _ _ hiL, slotAt_growTo]

theorem setValue_none_unocc_parts (t : EtzyngerTree N) (i : Nat)
    (hof : occB t i = false) :
    (setValue t i none).2 = i ∧
    (setValue t i none).1.maxChildrenPerNode = t.maxChildrenPerNode ∧
    (setValue t i none).1.nodes.length
      = t.nodes.length + (i + 1 - t.nodes.length) ∧
    (setValue t i none).1.len = t.len ∧
    ∀ j, slotAt (setValue t i none).1 j = slotAt t j := by
  have hiL : i < (growTo t i).nodes.length := by rw [growTo_length]; omega
  have hnone : (slotAt (growTo t i) i).isSome = false := by
    rw [slotAt_growTo]
    exact hof
  have hred : setValue t i none
      = ({ growTo t i with nodes := (growTo t i).nodes.set i none }, i) := by
    simp only [setValue, hnone, Bool.false_eq_true, if_false, Option.isSome_none]
  rw [hred]
  refine ⟨rfl, rfl, by simp [growTo_length], rfl, ?_⟩
  intro j
  rw [slotAt_set _ _ _ hiL, slotAt_growTo]
  by_cases hj : j = i
  · subst hj
    rw [if_pos rfl, slotAt_eq_none_of_not_occB t j hof]
  · rw [if_neg hj]

theorem countP_range_ext (f : Nat → Bool) : ∀ L Lp, L ≤ Lp →
    (∀ j, L ≤ j → f j = false) →
    (List.range Lp).countP f = (List.range L).countP f := by
  intro L Lp
  induction Lp with
  | zero =>
    intro h1 _
    obtain rfl : L = 0 := by omega
    rfl
  | succ M ih =>
    intro h1 h2
    by_cases hLM : L = M + 1
    · subst hLM; rfl
    · rw [List.range_succ, List.countP_append]
      have hM : [M].countP f = 0 := by simp [List.countP_cons, h2 M (by omega)]
      rw [hM, ih (by omega) h2]
      omega

/-- The shape of setValue when absence overwrites a present value: the slot
is cleared, the count decremented, and the removal fold runs over the
collected cascade positions. -/
theorem setValue_none_occ_eq (t : EtzyngerTree N) (i : Nat)
    (hocc : occB t i = true) :
    ∃ t2 : EtzyngerTree N,
      t2.maxChildrenPerNode = t.maxChildrenPerNode ∧
      t2.nodes.length = t.nodes.length ∧
      t2.len = t.len - 1 ∧
      (∀ j, slotAt t2 j = if j = i then none else slotAt t j) ∧
      setValue t i none
        = ((collectCascade t2 t2.nodes.length i).foldl removeIndex t2, i) := by
  have hiL : i < t.nodes.length := occB_lt t i hocc
  have hL0 : (growTo t i).nodes.length = t.nodes.length := by
    rw [growTo_length]; omega
  have hiG : i < (growTo t i).nodes.length := by omega
  have hsome : (slotAt (growTo t i) i).isSome = true := by
    rw [slotAt_growTo]; exact hocc
  refine ⟨{ growTo t i with
            nodes := (growTo t i).nodes.set i none,
            len := (growTo t i).len - 1 }, rfl, ?_, rfl, ?_, ?_⟩
  · simp [List.length_set, hL0]
  · intro j
    have e1 : slotAt ({ growTo t i with
        nodes := (growTo t i).nodes.set i none,
        len := (growTo t i).len - 1 } : EtzyngerTree N) j
        = slotAt { growTo t i with nodes := (growTo t i).nodes.set i none } j := rfl
    rw [e1, slotAt_set _ _ _ hiG, slotAt_growTo]
  · simp only [setValue, hsome, Option.isNone_none, if_true]

/-- The full effect of writing absence over an occupied slot under invariant
I2 with a positive branching factor: the slot and exactly its occupied
descendants are cleared, everything else is untouched, and (under I1) the
count drops by one plus the number of occupied descendants. -/
theorem setValue_none_cascade (t : EtzyngerTree N) (i : Nat)
    (hK : 0 < t.maxChildrenPerNode) (hI2 : I2 t) (hocc : occB t i = true) :
    (setValue t i none).2 = i ∧
    (setValue t i none).1.maxChildrenPerNode = t.maxChildrenPerNode ∧
    (setValue t i none).1.nodes.length = t.nodes.length ∧
    (∀ j, slotAt (setValue t i none).1 j =
      if j = i ∨ (IsDesc t.maxChildrenPerNode i j ∧ occB t j = true) then none
      else slotAt t j) ∧
    (I1 t → t.len = (setValue t i none).1.len + 1 + countOccDesc t i ∧
      I1 (setValue t i none).1) := by
  obtain ⟨t2, hK2, hL2, hlen2, hslot2, hred⟩ := setValue_none_occ_eq t i hocc
  have hiL : i < t.nodes.length := occB_lt t i hocc
  have hocc2 : ∀ j, occB t2 j = if j = i then false else occB t j := by
    intro j
    rw [occB, hslot2]
    split <;> rfl
  set l := collectCascade t2 t2.nodes.length i with hl
  have hmem : ∀ j, j ∈ l ↔ OccChain t2 i j :=
    fun j => mem_collectCascade t2 _ i (by omega) j
  have hchain : ∀ j, OccChain t2 i j ↔
      (IsDesc t.maxChildrenPerNode i j ∧ occB t j = true) := by
    intro j
    constructor
    · intro hc
      have hd := occChain_isDesc hc
      rw [hK2] at hd
      have hne : j ≠ i := by
        have := isDesc_lt hd; omega
      have ho2 := occChain_occ hc
      rw [hocc2 j, if_neg hne] at ho2
      exact ⟨hd, ho2⟩
    · rintro ⟨hd, ho⟩
      exact occChain_of_desc t t2 i hK hK2 hI2
        (fun x hx => by rw [hocc2 x, if_neg hx]) j hd ho
  rw [hred]
  refine ⟨rfl, ?_, ?_, ?_, ?_⟩
  · rw [max_foldl_remove, hK2]
  · rw [length_foldl_remove, hL2]
  · intro j
    rw [slotAt_foldl_remove]
    by_cases hmemj : j ∈ l
    · obtain ⟨hd, ho⟩ := (hchain j).mp ((hmem j).mp hmemj)
      rw [if_pos hmemj, if_pos (Or.inr ⟨hd, ho⟩)]
    · rw [if_neg hmemj, hslot2 j]
      by_cases hji : j = i
      · subst hji
        rw [if_pos rfl, if_pos (Or.inl rfl)]
      · rw [if_neg hji]
        have hnd : ¬(j = i ∨ (IsDesc t.maxChildrenPerNode i j ∧ occB t j = true)) := by
          rintro (rfl | hdo)
          · exact hji rfl
          · exact hmemj ((hmem j).mpr ((hchain j).mpr hdo))
        rw [if_neg hnd]
  · intro hI1
    have e1 : countOccupied t = countOccupied t2 + 1 := by
      rw [countOccupied_eq_range, countOccupied_eq_range, hL2]
      exact countP_range_flip _ i _ _ hiL hocc
        (by rw [hocc2 i, if_pos rfl])
        (fun j hj => by rw [hocc2 j, if_neg hj])
    have hI1t2 : I1 t2 := by
      rw [I1] at hI1 ⊢
      omega
    have hI1r : I1 (l.foldl removeIndex t2) := foldl_remove_I1 l t2 hI1t2
    have e2 : countOccupied (l.foldl removeIndex t2)
        = (List.range t.nodes.length).countP
            (fun j => !decide (j ∈ l) && occB t2 j) := by
      rw [countOccupied_eq_range, length_foldl_remove, hL2]
      refine List.countP_congr fun j _ => ?_
      rw [occB, slotAt_foldl_remove]
      by_cases hmj : j ∈ l
      · simp [hmj]
      · simp [hmj, occB]
    have e3 : (List.range t.nodes.length).countP (fun j => occB t2 j)
        = (List.range t.nodes.length).countP (fun j => decide (j ∈ l) && occB t2 j)
          + (List.range t.nodes.length).countP
              (fun j => !decide (j ∈ l) && occB t2 j) :=
      countP_split _ _ _
    have e3b : countOccupied t2
        = (List.range t.nodes.length).countP (fun j => occB t2 j) := by
      rw [countOccupied_eq_range, hL2]
    have e4 : (List.range t.nodes.length).countP (fun j => decide (j ∈ l) && occB t2 j)
        = countOccDesc t i := by
      rw [countOccDesc]
      refine List.countP_congr fun j _ => ?_
      constructor
      · intro hb
        rw [Bool.and_eq_true] at hb
        obtain ⟨hd, ho⟩ := (hchain j).mp ((hmem j).mp (of_decide_eq_true hb.1))
        rw [Bool.and_eq_true]
        exact ⟨ho, decide_eq_true hd⟩
      · intro hb
        rw [Bool.and_eq_true] at hb
        have hd : IsDesc t.maxChildrenPerNode i j := of_decide_eq_true hb.2
        have hmj : j ∈ l := (hmem j).mpr ((hchain j).mpr ⟨hd, hb.1⟩)
        have hne : j ≠ i := by
          have := isDesc_lt hd; omega
        rw [Bool.and_eq_true]
        refine ⟨decide_eq_true hmj, ?_⟩
        rw [hocc2 j, if_neg hne]
        exact hb.1
    rw [I1] at hI1 hI1r hI1t2
    refine ⟨?_, hI1r⟩
    show t.len = (l.foldl removeIndex t2).len + 1 + countOccDesc t i
    omega

/-- Every setValue call preserves invariant I1. -/
theorem setValue_I1 (t : EtzyngerTree N) (i : Nat) (v : Option N) (h : I1 t) :
    I1 (setValue t i v).1 := by
  cases v with
  | some w =>
    obtain ⟨-, -, hlen2, hlenv, hslot⟩ := setValue_some_parts t i w
    have hoccr : ∀ j, occB (setValue t i (some w)).1 j
        = if j = i then true else occB t j := by
      intro j
      rw [occB, hslot]
      split <;> rfl
    by_cases ho : occB t i
    · have hiL : i < t.nodes.length := occB_lt t i ho
      have e : countOccupied (setValue t i (some w)).1 = countOccupied t := by
        rw [countOccupied_eq_range, countOccupied_eq_range, hlen2,
          show t.nodes.length + (i + 1 - t.nodes.length) = t.nodes.length by omega]
        refine List.countP_congr fun j _ => ?_
        rw [hoccr j]
        by_cases hji : j = i
        · subst hji
          rw [if_pos rfl, ho]
        · rw [if_neg hji]
      rw [I1, hlenv, if_pos ho, e, h]
    · have hof : occB t i = false := by
        cases h2 : occB t i
        · rfl
        · exact absurd h2 ho
      have hiLp : i < t.nodes.length + (i + 1 - t.nodes.length) := by omega
      have e : countOccupied (setValue t i (some w)).1 = countOccupied t + 1 := by
        rw [countOccupied_eq_range, countOccupied_eq_range, hlen2]
        have eflip : (List.range (t.nodes.length + (i + 1 - t.nodes.length))).countP
            (fun j => occB (setValue t i (some w)).1 j)
            = (List.range (t.nodes.length + (i + 1 - t.nodes.length))).countP
                (fun j => occB t j) + 1 :=
          countP_range_flip _ i _ _ hiLp
            (by rw [hoccr i, if_pos rfl]) hof
            (fun j hj => by rw [hoccr j, if_neg hj])
        rw [eflip, countP_range_ext _ t.nodes.length _ (by omega)
          (fun j hj => by
            cases h2 : occB t j
            · rfl
            · exact absurd (occB_lt t j h2) (by omega))]
      rw [I1, hlenv, if_neg ho, e, h]
  | none =>
    by_cases ho : occB t i
    · obtain ⟨t2, hK2, hL2, hlen2, hslot2, hred⟩ := setValue_none_occ_eq t i ho
      have hiL : i < t.nodes.length := occB_lt t i ho
      have hocc2 : ∀ j, occB t2 j = if j = i then false else occB t j := by
        intro j
        rw [occB, hslot2]
        split <;> rfl
      have e1 : countOccupied t = countOccupied t2 + 1 := by
        rw [countOccupied_eq_range, countOccupied_eq_range, hL2]
        exact countP_range_flip _ i _ _ hiL ho
          (by rw [hocc2 i, if_pos rfl])
          (fun j hj => by rw [hocc2 j, if_neg hj])
      have hI1t2 : I1 t2 := by
        rw [I1] at h ⊢
        omega
      rw [hred]
      exact foldl_remove_I1 _ t2 hI1t2
    · have hof : occB t i = false := by
        cases h2 : occB t i
        · rfl
        · exact absurd h2 ho
      obtain ⟨-, -, hlen2, hlenv, hslot⟩ := setValue_none_unocc_parts t i hof
      have e : countOccupied (setValue t i none).1 = countOccupied t := by
        rw [countOccupied_eq_range, countOccupied_eq_range, hlen2]
        have ecg : (List.range (t.nodes.length + (i + 1 - t.nodes.length))).countP
            (fun j => occB (setValue t i none).1 j)
            = (List.range (t.nodes.length + (i + 1 - t.nodes.length))).countP
                (fun j => occB t j) := by
          refine List.countP_congr fun j _ => ?_
          rw [occB, hslot j, occB]
        rw [ecg, countP_range_ext _ t.nodes.length _ (by omega)
          (fun j hj => by
            cases h2 : occB t j
            · rfl
            · exact absurd (occB_lt t j h2) (by omega))]
      rw [I1, hlenv, e, h]

theorem setValue_max (t : EtzyngerTree N) (i : Nat) (v : Option N) :
    (setValue t i v).1.maxChildrenPerNode = t.maxChildrenPerNode := by
  cases v with
  | some w => exact (setValue_some_parts t i w).2.1
  | none =>
    by_cases ho : occB t i
    · obtain ⟨t2, hK2, -, -, -, hred⟩ := setValue_none_occ_eq t i ho
      rw [hred]
      show (List.foldl removeIndex t2 _).maxChildrenPerNode = _
      rw [max_foldl_remove, hK2]
    · rw [Bool.not_eq_true] at ho
      exact (setValue_none_unocc_parts t i ho).2.1

theorem I2_setValue_some (t : EtzyngerTree N) (i : Nat) (w : N) (hI2 : I2 t)
    (hpar : i = 0 ∨ (0 < i ∧ occB t (parentIdxF t.maxChildrenPerNode i) = true)) :
    I2 (setValue t i (some w)).1 := by
  obtain ⟨-, hmax, -, -, hslot⟩ := setValue_some_parts t i w
  have hoccr : ∀ j, occB (setValue t i (some w)).1 j
      = if j = i then true else occB t j := by
    intro j
    rw [occB, hslot j]
    split <;> rfl
  intro j hjL hj0 hoj
  rw [hmax, hoccr]
  rw [hoccr j] at hoj
  by_cases hji : j = i
  · subst hji
    rcases hpar with rfl | ⟨hi0, hop⟩
    · exact absurd hj0 (by omega)
    · have hpl : parentIdxF t.maxChildrenPerNode j < j := parentIdxF_lt _ _ hi0
      rw [if_neg (by omega)]
      exact hop
  · rw [if_neg hji] at hoj
    have hop := hI2 j (occB_lt t j hoj) hj0 hoj
    by_cases hpji : parentIdxF t.maxChildrenPerNode j = i
    · rw [if_pos hpji]
    · rw [if_neg hpji]
      exact hop

theorem I2_setValue_none_unocc (t : EtzyngerTree N) (i : Nat)
    (hof : occB t i = false) (hI2 : I2 t) : I2 (setValue t i none).1 := by
  obtain ⟨-, hmax, -, -, hslot⟩ := setValue_none_unocc_parts t i hof
  have hoccr : ∀ j, occB (setValue t i none).1 j = occB t j := by
    intro j
    rw [occB, hslot j]
    rfl
  intro j hjL hj0 hoj
  rw [hoccr j] at hoj
  rw [hmax, hoccr]
  exact hI2 j (occB_lt t j hoj) hj0 hoj

theorem I2_setValue_none_occ (t : EtzyngerTree N) (i : Nat)
    (hK : 0 < t.maxChildrenPerNode) (hI2 : I2 t) (hocc : occB t i = true) :
    I2 (setValue t i none).1 := by
  obtain ⟨-, hmax, -, hslot, -⟩ := setValue_none_cascade t i hK hI2 hocc
  have hoccr : ∀ j, occB (setValue t i none).1 j
      = if j = i ∨ (IsDesc t.maxChildrenPerNode i j ∧ occB t j = true) then false
        else occB t j := by
    intro j
    rw [occB, hslot j]
    split <;> rfl
  intro j hjL hj0 hoj
  rw [hoccr j] at hoj
  by_cases hcond : j = i ∨ (IsDesc t.maxChildrenPerNode i j ∧ occB t j = true)
  · rw [if_pos hcond] at hoj
    cases hoj
  · rw [if_neg hcond] at hoj
    have hop := hI2 j (occB_lt t j hoj) hj0 hoj
    rw [hmax, hoccr]
    have hanc : ancList t.maxChildrenPerNode j
        = parentIdxF t.maxChildrenPerNode j
          :: ancList t.maxChildrenPerNode (parentIdxF t.maxChildrenPerNode j) :=
      ancList_succ _ j hj0
    have hnp : ¬(parentIdxF t.maxChildrenPerNode j = i ∨
        (IsDesc t.maxChildrenPerNode i (parentIdxF t.maxChildrenPerNode j) ∧
          occB t (parentIdxF t.maxChildrenPerNode j) = true)) := by
      rintro (hpi | ⟨hdp, -⟩)
      · exact hcond (Or.inr ⟨by
          rw [IsDesc, hanc]
          exact List.mem_cons.mpr (Or.inl hpi.symm), hoj⟩)
      · exact hcond (Or.inr ⟨by
          rw [IsDesc, hanc]
          exact List.mem_cons.mpr (Or.inr hdp), hoj⟩)
    rw [if_neg hnp]
    exact hop

theorem setValue_none_K0_occ_char (t : EtzyngerTree N) (i : Nat)
    (hKz : t.maxChildrenPerNode = 0) (hocc : occB t i = true) :
    ∀ j, occB (setValue t i none).1 j = if j = i then false else occB t j := by
  obtain ⟨t2, hK2, -, -, hslot2, hred⟩ := setValue_none_occ_eq t i hocc
  intro j
  rw [hred]
  show occB ((collectCascade t2 t2.nodes.length i).foldl removeIndex t2) j = _
  rw [collectCascade_K0 t2 (by rw [hK2, hKz])]
  show occB t2 j = _
  rw [occB, hslot2 j]
  split <;> rfl

theorem occB_new (K j : Nat) : occB (EtzyngerTree.new N K) j = false := by
  cases j with
  | zero => rfl
  | succ j => rfl

theorem occB_clear (t : EtzyngerTree N) (j : Nat) : occB (clear t) j = false := by
  rcases t with ⟨nodes, K, len⟩
  cases nodes with
  | nil =>
    cases j with
    | zero => rfl
    | succ j => rfl
  | cons a l =>
    cases j with
    | zero => rfl
    | succ j =>
      cases j with
      | zero => rfl
      | succ j => rfl

theorem countOccupied_clear (t : EtzyngerTree N) : countOccupied (clear t) = 0 := by
  rcases t with ⟨nodes, K, len⟩
  cases nodes with
  | nil => rfl
  | cons a l => rfl

theorem clear_length_le (t : EtzyngerTree N) : (clear t).nodes.length ≤ 1 := by
  rcases t with ⟨nodes, K, len⟩
  cases nodes with
  | nil => exact Nat.zero_le 1
  | cons a l => exact Nat.le_refl 1

/-- The trees reachable from a freshly constructed tree by the public
operations: root value assignment, child value assignment through an
occupied handle, removal at an occupied handle, and clear. -/
inductive Reachable (N : Type) (K : Nat) : EtzyngerTree N → Prop where
  | base : Reachable N K (EtzyngerTree.new N K)
  | setRoot {t : EtzyngerTree N} (v : Option N) :
      Reachable N K t → Reachable N K (setRootValue t v).1
  | setChild {t : EtzyngerTree N} (p c : Nat) (v : Option N)
      (r : EtzyngerTree N × Nat) :
      Reachable N K t → occB t p = true → setChildValue t p c v = some r →
      Reachable N K r.1
  | removeAt {t : EtzyngerTree N} (i : Nat) :
      Reachable N K t → occB t i = true → Reachable N K (remove t i)
  | clearOp {t : EtzyngerTree N} : Reachable N K t → Reachable N K (clear t)

theorem reachable_inv {K : Nat} {t : EtzyngerTree N} (h : Reachable N K t) :
    t.maxChildrenPerNode = K ∧ I1 t ∧ I2 t ∧
      (K = 0 → ∀ j, 0 < j → occB t j = false) := by
  induction h with
  | base =>
    refine ⟨rfl, by simp [I1, countOccupied, EtzyngerTree.new], ?_, ?_⟩
    · intro j hjL hj0 _
      have : (EtzyngerTree.new N K).nodes.length = 1 := rfl
      omega
    · intro _ j hj0
      exact occB_new K j
  | setRoot v h ih =>
    obtain ⟨hmax, hI1, hI2, hK0⟩ := ih
    rename_i t0
    refine ⟨by rw [setRootValue, setValue_max, hmax], setValue_I1 _ _ _ hI1, ?_, ?_⟩
    · rw [setRootValue]
      cases v with
      | some w => exact I2_setValue_some t0 0 w hI2 (Or.inl rfl)
      | none =>
        by_cases ho : occB t0 0
        · by_cases hKz : t0.maxChildrenPerNode = 0
          · intro j hjL hj0 hoj
            rw [setValue_none_K0_occ_char t0 0 hKz ho j] at hoj
            by_cases hj00 : j = 0
            · rw [if_pos hj00] at hoj
              cases hoj
            · rw [if_neg hj00] at hoj
              rw [hK0 (by omega) j hj0] at hoj
              cases hoj
          · exact I2_setValue_none_occ t0 0 (by omega) hI2 ho
        · rw [Bool.not_eq_true] at ho
          exact I2_setValue_none_unocc t0 0 ho hI2
    · intro hKz j hj0
      rw [setRootValue]
      cases v with
      | some w =>
        obtain ⟨-, -, -, -, hslot⟩ := setValue_some_parts t0 0 w
        rw [occB, hslot j, if_neg (by omega)]
        exact hK0 hKz j hj0
      | none =>
        by_cases ho : occB t0 0
        · rw [setValue_none_K0_occ_char t0 0 (by omega) ho j, if_neg (by omega)]
          exact hK0 hKz j hj0
        · rw [Bool.not_eq_true] at ho
          obtain ⟨-, -, -, -, hslot⟩ := setValue_none_unocc_parts t0 0 ho
          rw [occB, hslot j]
          exact hK0 hKz j hj0
  | setChild p c v r h hop hcv ih =>
    obtain ⟨hmax, hI1, hI2, hK0⟩ := ih
    rename_i t0
    have hc : c < t0.maxChildrenPerNode := by
      by_contra hcge
      rw [setChildValue, if_neg hcge] at hcv
      cases hcv
    have hr : r = setValue t0 (childIndex t0.maxChildrenPerNode p c) v := by
      rw [setChildValue, if_pos hc] at hcv
      cases hcv
      rfl
    subst hr
    have hK : 0 < t0.maxChildrenPerNode := by omega
    have hci : 0 < childIndex t0.maxChildrenPerNode p c := by
      rw [childIndex]; omega
    refine ⟨by rw [setValue_max, hmax], setValue_I1 _ _ _ hI1, ?_, ?_⟩
    · cases v with
      | some w =>
        refine I2_setValue_some t0 _ w hI2 (Or.inr ⟨hci, ?_⟩)
        rw [parentIdxF_childIndex _ _ _ hc]
        exact hop
      | none =>
        by_cases ho : occB t0 (childIndex t0.maxChildrenPerNode p c)
        · exact I2_setValue_none_occ t0 _ hK hI2 ho
        · rw [Bool.not_eq_true] at ho
          exact I2_setValue_none_unocc t0 _ ho hI2
    · intro hKz
      exact absurd hK (by omega)
  | removeAt i h hocc ih =>
    obtain ⟨hmax, hI1, hI2, hK0⟩ := ih
    rename_i t0
    rw [remove]
    refine ⟨by rw [setValue_max, hmax], setValue_I1 _ _ _ hI1, ?_, ?_⟩
    · by_cases hKz : t0.maxChildrenPerNode = 0
      · intro j hjL hj0 hoj
        rw [setValue_none_K0_occ_char t0 i hKz hocc j] at hoj
        by_cases hji : j = i
        · rw [if_pos hji] at hoj
          cases hoj
        · rw [if_neg hji] at hoj
          rw [hK0 (by omega) j hj0] at hoj
          cases hoj
      · exact I2_setValue_none_occ t0 i (by omega) hI2 hocc
    · intro hKz j hj0
      rw [setValue_none_K0_occ_char t0 i (by omega) hocc j]
      by_cases hji : j = i
      · rw [if_pos hji]
      · rw [if_neg hji]
        exact hK0 hKz j hj0
  | clearOp h ih =>
    rename_i t0
    refine ⟨ih.1, ?_, ?_, ?_⟩
    · rw [I1, countOccupied_clear]
      rfl
    · intro j hjL hj0 _
      have := clear_length_le t0
      omega
    · intro _ j hj0
      exact occB_clear _ j

/-- Claim C7: along every sequence of public operations from a freshly
constructed tree, the stored count equals the number of slots currently
holding a value (invariant I1). -/
theorem reachable_len_eq_occupied {K : Nat} (t : EtzyngerTree N)
    (h : Reachable N K t) : t.len = countOccupied t :=
  (reachable_inv h).2.1

/-- Witness for C7 after one root assignment. -/
theorem reachable_len_eq_occupied_witness :
    Reachable Nat 2 (setRootValue (EtzyngerTree.new Nat 2) (some 5)).1 ∧
    (setRootValue (EtzyngerTree.new Nat 2) (some 5)).1.len
      = countOccupied (setRootValue (EtzyngerTree.new Nat 2) (some 5)).1 :=
  have hr : Reachable Nat 2 (setRootValue (EtzyngerTree.new Nat 2) (some 5)).1 :=
    Reachable.setRoot (some 5) Reachable.base
  ⟨hr, reachable_len_eq_occupied _ hr⟩

/-- Claim C8: in every tree reachable by public operations, a non-root slot
holds a value only if its parent slot holds a value (invariant I2). -/
theorem reachable_structural_invariant {K : Nat} (t : EtzyngerTree N)
    (h : Reachable N K t) :
    ∀ j, 0 < j → occB t j = true →
      occB t (parentIdxF t.maxChildrenPerNode j) = true := by
  intro j hj0 hoj
  exact (reachable_inv h).2.2.1 j (occB_lt t j hoj) hj0 hoj

/-- Witness for C8 after a root and a child assignment. -/
theorem reachable_structural_invariant_witness :
    Reachable Nat 2
      (setValue (setRootValue (EtzyngerTree.new Nat 2) (some 5)).1
        (childIndex
          (setRootValue (EtzyngerTree.new Nat 2) (some 5)).1.maxChildrenPerNode
          0 0) (some 7)).1 ∧
    (∀ j, 0 < j →
      occB (setValue (setRootValue (EtzyngerTree.new Nat 2) (some 5)).1
        (childIndex
          (setRootValue (EtzyngerTree.new Nat 2) (some 5)).1.maxChildrenPerNode
          0 0) (some 7)).1 j = true →
      occB (setValue (setRootValue (EtzyngerTree.new Nat 2) (some 5)).1
        (childIndex
          (setRootValue (EtzyngerTree.new Nat 2) (some 5)).1.maxChildrenPerNode
          0 0) (some 7)).1
        (parentIdxF (setValue (setRootValue (EtzyngerTree.new Nat 2) (some 5)).1
          (childIndex
            (setRootValue (EtzyngerTree.new Nat 2) (some 5)).1.maxChildrenPerNode
            0 0) (some 7)).1.maxChildrenPerNode j) = true) :=
  have hr : Reachable Nat 2 (setRootValue (EtzyngerTree.new Nat 2) (some 5)).1 :=
    Reachable.setRoot (some 5) Reachable.base
  have hr2 : Reachable Nat 2
      (setValue (setRootValue (EtzyngerTree.new Nat 2) (some 5)).1
        (childIndex
          (setRootValue (EtzyngerTree.new Nat 2) (some 5)).1.maxChildrenPerNode
          0 0) (some 7)).1 :=
    Reachable.setChild 0 0 (some 7) _ hr (by decide) rfl
  ⟨hr2, reachable_structural_invariant _ hr2⟩

/-- A concrete valid tree for the cascade witness: branching factor 2, slots
0..3 occupied (3 = child 0 of 1). -/
def cascadeExampleTree : EtzyngerTree Nat :=
  { nodes := [some 1, some 2, some 3, some 4], maxChildrenPerNode := 2, len := 4 }

/-- Claim C1: on a valid tree (invariants I1, I2, positive branching factor),
writing absence to an occupied position that has occupied descendants drops
the count by exactly one plus the number of occupied descendants, leaves the
position and every descendant slot absent, and leaves every other slot —
ancestors and siblings included — exactly as before. -/
theorem set_value_absence_cascades (t : EtzyngerTree N) (i : Nat)
    (hK : 0 < t.maxChildrenPerNode) (hI1 : I1 t) (hI2 : I2 t)
    (hocc : occB t i = true) (hD : 0 < countOccDesc t i) :
    t.len = (setValue t i none).1.len + 1 + countOccDesc t i ∧
    slotAt (setValue t i none).1 i = none ∧
    (∀ j, IsDesc t.maxChildrenPerNode i j → slotAt (setValue t i none).1 j = none) ∧
    (∀ j, j ≠ i → ¬IsDesc t.maxChildrenPerNode i j →
      slotAt (setValue t i none).1 j = slotAt t j) := by
  obtain ⟨-, -, -, hslot, hcount⟩ := setValue_none_cascade t i hK hI2 hocc
  refine ⟨(hcount hI1).1, ?_, ?_, ?_⟩
  · rw [hslot i, if_pos (Or.inl rfl)]
  · intro j hd
    rw [hslot j]
    by_cases ho : occB t j = true
    · rw [if_pos (Or.inr ⟨hd, ho⟩)]
    · split
      · rfl
      · rw [Bool.not_eq_true] at ho
        exact slotAt_eq_none_of_not_occB t j ho
  · intro j hji hnd
    rw [hslot j, if_neg ?_]
    rintro (rfl | ⟨hd, -⟩)
    · exact hji rfl
    · exact hnd hd

/-- Witness for C1: clearing position 1 of the concrete tree (one occupied
descendant, position 3) drops the count from 4 to 2. -/
theorem set_value_absence_cascades_witness :
    (0 < cascadeExampleTree.maxChildrenPerNode ∧ I1 cascadeExampleTree ∧
      I2 cascadeExampleTree ∧ occB cascadeExampleTree 1 = true ∧
      0 < countOccDesc cascadeExampleTree 1) ∧
    cascadeExampleTree.len
      = (setValue cascadeExampleTree 1 none).1.len + 1
        + countOccDesc cascadeExampleTree 1 :=
  ⟨⟨by decide, by decide, by decide, by decide, by decide⟩,
    (set_value_absence_cascades cascadeExampleTree 1 (by decide) (by decide)
      (by decide) (by decide) (by decide)).1⟩

/- Iterators (modelled from the spec; the iterator sources are not under
src/). -/

/-- Modelled from the spec: DepthFirstIterator in pre-order (spec section
4.5): visit an occupied node before its children, children in increasing
slot order, pruning at the first vacant slot.  Fuel bounds recursion depth;
one more than the array length always suffices. -/
def preOrderAux (t : EtzyngerTree N) : Nat → Nat → List Nat
  | 0, _ => []
  | fuel + 1, i =>
      if occB t i then
        i :: (List.range t.maxChildrenPerNode).flatMap
          (fun c => preOrderAux t fuel (childIndex t.maxChildrenPerNode i c))
      else []

/-- Pre-order index sequence of the whole tree, from the root slot. -/
def preOrderIdx (t : EtzyngerTree N) : List Nat :=
  preOrderAux t (t.nodes.length + 1) 0

/-- Modelled from the spec: DepthFirstIterator in post-order (spec section
4.5): visit all subtrees in increasing slot order, then the node. -/
def postOrderAux (t : EtzyngerTree N) : Nat → Nat → List Nat
  | 0, _ => []
  | fuel + 1, i =>
      if occB t i then
        ((List.range t.maxChildrenPerNode).flatMap
          (fun c => postOrderAux t fuel (childIndex t.maxChildrenPerNode i c))) ++ [i]
      else []

/-- Post-order index sequence of the whole tree, from the root slot. -/
def postOrderIdx (t : EtzyngerTree N) : List Nat :=
  postOrderAux t (t.nodes.length + 1) 0

/-- Modelled from the spec: BreadthFirstIterator (spec section 4.5): a queue
of occupied positions, each dequeued node enqueueing its occupied children in
increasing slot order.  Fuel bounds the number of dequeues; the array length
always suffices. -/
def bfsAux (t : EtzyngerTree N) : Nat → List Nat → List Nat
  | 0, _ => []
  | _ + 1, [] => []
  | fuel + 1, i :: q =>
      i :: bfsAux t fuel
        (q ++ (List.range t.maxChildrenPerNode).filterMap
          (fun c => if occB t (childIndex t.maxChildrenPerNode i c)
            then some (childIndex t.maxChildrenPerNode i c) else none))

/-- Breadth-first index sequence of the whole tree. -/
def breadthFirstIdx (t : EtzyngerTree N) : List Nat :=
  bfsAux t t.nodes.length (if occB t 0 then [0] else [])

/-- The tree of the end-to-end example, built by exactly the operation
sequence of the source tests (lib.rs lines 259-327): branching factor 2,
root 5, children 2 and 7, then 1, 4 under 2, 3 under 4, and 8 under 7. -/
def exTree : EtzyngerTree Nat :=
  let s1 := (setRootValue (EtzyngerTree.new Nat 2) (some 5)).1
  let s2 := ((setChildValue s1 0 0 (some 2)).getD (s1, 0)).1
  let s3 := ((setChildValue s2 1 0 (some 1)).getD (s2, 0)).1
  let s4 := ((setChildValue s3 1 1 (some 4)).getD (s3, 0)).1
  let s5 := ((setChildValue s4 4 0 (some 3)).getD (s4, 0)).1
  let s6 := ((setChildValue s5 0 1 (some 7)).getD (s5, 0)).1
  ((setChildValue s6 2 1 (some 8)).getD (s6, 0)).1

/-- Claim C9: the end-to-end example has seven nodes, pre-order values
5 2 1 4 3 7 8, post-order values 1 3 4 2 8 7 5, and breadth-first values
5 2 7 1 4 8 3. -/
theorem end_to_end_example :
    exTree.len = 7 ∧
    (preOrderIdx exTree).filterMap (fun i => slotAt exTree i)
      = [5, 2, 1, 4, 3, 7, 8] ∧
    (postOrderIdx exTree).filterMap (fun i => slotAt exTree i)
      = [1, 3, 4, 2, 8, 7, 5] ∧
    (breadthFirstIdx exTree).filterMap (fun i => slotAt exTree i)
      = [5, 2, 7, 1, 4, 8, 3] := by decide

end Etzynger
